import Mathlib

/-!
Verification development for the speech-bubble pipeline.

The pipeline has two algorithmic cores, shallowly embedded here from the
Python source:

* the region pipeline (file src/visualize_bounds.py): grouping OCR text
  fragments into bubbles by anisotropic distance, merging overlapping
  bubble groups, prioritizing the largest groups, and building the
  persisted bubble records; and
* the text layout engine (file src/insert_translated_text.py,
  function fit_text_to_bubble): fitting a string into a rectangle by a
  descending font-size scan with greedy wrapping and a character-level
  hyphenation fallback.

Modelling conventions.  Integer pixel coordinates become Int (Python
floor division `//` becomes Int.ediv, which agrees with Python for
positive divisors).  The clustering parameters and the anisotropic
transform are exact rationals; Python evaluates them in binary floating
point, where the constants 0.75 and 1.5 are exact dyadics and products
with moderate integers are exact, so the model coincides with the code
on all realistic inputs.  Font metrics (PIL ImageFont) are an external
collaborator, modelled by the FontMetrics structure: a width measure for
a string at a size, and the bottom of the bounding box of the probe
string used by the code for line height.  The float comparisons against
width*0.95, height*0.95 and int(width*0.9/m) are modelled by the exact
rationals 19/20 and 9/10 (cross-multiplied to stay in Nat).  Fallible
operations return Except String; the error payloads name the Python
exception class that the corresponding call would raise.
-/

/-- A text fragment record as produced by the OCR stage: a pixel bounding
box, the recognized text and a confidence score.  Mirrors the JSON
dictionaries consumed by src/visualize_bounds.py. -/
structure TextFragment where
  x : Int
  y : Int
  width : Int
  height : Int
  text : String
  confidence : Int
deriving DecidableEq

/-- Axis-aligned box stored the way the Python code stores it: the tuple
(min_x, min_y, max_x, max_y). -/
structure BBox where
  minX : Int
  minY : Int
  maxX : Int
  maxY : Int
deriving DecidableEq

/-- Minimum of a nonempty list of integers, 0 on the empty list (where the
Python min() call would raise; every caller passes a nonempty list). -/
def listMinI : List Int → Int
  | [] => 0
  | v :: t => t.foldl min v

/-- Maximum of a nonempty list of integers, 0 on the empty list. -/
def listMaxI : List Int → Int
  | [] => 0
  | v :: t => t.foldl max v

/-- Bounding box of a fragment group, exactly the four min/max comprehensions
the Python code repeats in merge_overlapping_bubbles,
filter_and_prioritize_bubbles and save_final_bounds. -/
def bboxOf (g : List TextFragment) : BBox :=
  { minX := listMinI (g.map (fun f => f.x))
    minY := listMinI (g.map (fun f => f.y))
    maxX := listMaxI (g.map (fun f => f.x + f.width))
    maxY := listMaxI (g.map (fun f => f.y + f.height)) }

/-- The strict rectangle-intersection test of merge_overlapping_bubbles
(lines 119-120 of src/visualize_bounds.py). -/
def boxesOverlap (a b : BBox) : Bool :=
  a.minX < b.maxX && a.maxX > b.minX && a.minY < b.maxY && a.maxY > b.minY

/-- Union rectangle, as computed when two bubbles are merged. -/
def boxUnion (a b : BBox) : BBox :=
  ⟨min a.minX b.minX, min a.minY b.minY, max a.maxX b.maxX, max a.maxY b.maxY⟩

/-- Default fragment used only to give list indexing a total type; every
index the algorithms look up is in range. -/
def dfltFragment : TextFragment := ⟨0, 0, 0, 0, "", 0⟩

/-- Center of a fragment, Python `x + width // 2, y + height // 2`. -/
def centerOf (f : TextFragment) : Int × Int :=
  (f.x + Int.ediv f.width 2, f.y + Int.ediv f.height 2)

/-- Anisotropic transform applied before clustering, Python
`[x * horizontal_penalty, y * vertical_weight]`. -/
def transformPoint (hp vw : ℚ) (f : TextFragment) : ℚ × ℚ :=
  (((centerOf f).1 : ℚ) * hp, ((centerOf f).2 : ℚ) * vw)

/-- Euclidean neighbourhood test: distance at most eps, compared on squares
so the model stays in exact rational arithmetic. -/
def sqNormLe (p q : ℚ × ℚ) (eps : ℚ) : Bool :=
  decide ((p.1 - q.1) * (p.1 - q.1) + (p.2 - q.2) * (p.2 - q.2) ≤ eps * eps)

/-- Neighbourhood relation between two region indices used by the DBSCAN
model. -/
def adjacentIdx (regions : List TextFragment) (eps vw hp : ℚ) (i j : Nat) : Bool :=
  sqNormLe (transformPoint hp vw (regions.getD i dfltFragment))
    (transformPoint hp vw (regions.getD j dfltFragment)) eps

/-- One step of incremental connected-component construction: point i is
joined with every existing component containing a neighbour of i (the first
such component keeps its position, matching label order), or starts a new
component. -/
def addPoint (adj : Nat → Nat → Bool) (i : Nat) : List (List Nat) → List (List Nat)
  | [] => [[i]]
  | c :: rest =>
    if c.any (fun j => adj j i) then
      (c ++ (rest.filter (fun d => d.any (fun j => adj j i))).flatten ++ [i]) ::
        rest.filter (fun d => !d.any (fun j => adj j i))
    else
      c :: addPoint adj i rest

/-- Modelled from the documented semantics of sklearn DBSCAN with
min_samples=1 (the external clustering library the code calls): every point
is a core point, so the clusters are exactly the connected components of
the eps-neighbourhood graph, labels assigned in first-seen order. -/
def dbscanComponents (adj : Nat → Nat → Bool) (n : Nat) : List (List Nat) :=
  (List.range n).foldl (fun comps i => addPoint adj i comps) []

/-- The clusterer group_text_regions_by_distance of src/visualize_bounds.py:
transform each fragment center anisotropically, cluster with DBSCAN
(eps, min_samples=1), then group fragments by cluster label; groups are
ordered by first occurrence of their label and members keep input order. -/
def group_text_regions_by_distance (regions : List TextFragment) (eps vw hp : ℚ) :
    List (List TextFragment) :=
  let n := regions.length
  (dbscanComponents (adjacentIdx regions eps vw hp) n).map
    (fun c => ((List.range n).filter (fun j => c.contains j)).filterMap
      (fun j => regions[j]?))

/-- State of the merger: a bubble group paired with its maintained bounding
box, mirroring the parallel lists bubble_groups / bubble_boxes. -/
abbrev GroupBox := List TextFragment × BBox

/-- Inner j-sweep of merge_overlapping_bubbles for a fixed bubble i: walk the
groups after i, absorbing (extend + pop) every group whose box overlaps the
growing box of i; reports whether any merge happened. -/
def sweepJ (gi : GroupBox) : List GroupBox → GroupBox × List GroupBox × Bool
  | [] => (gi, [], false)
  | g :: t =>
    if boxesOverlap gi.2 g.2 then
      let r := sweepJ (gi.1 ++ g.1, boxUnion gi.2 g.2) t
      (r.1, r.2.1, true)
    else
      let r := sweepJ gi t
      (r.1, g :: r.2.1, r.2.2)

/-- Outer i-scan of merge_overlapping_bubbles: find the first bubble whose
sweep merges something and restart (some updated-state); none when no pair
of boxes overlaps. -/
def scanI (acc : List GroupBox) : List GroupBox → Option (List GroupBox)
  | [] => none
  | g :: t =>
    let r := sweepJ g t
    if r.2.2 then some (acc ++ r.1 :: r.2.1) else scanI (acc ++ [g]) t

/-- Repeat-until-no-merge loop of merge_overlapping_bubbles.  Each restart
removes at least one group, so fuel equal to the group count always
suffices (mergeLoopF_fix below). -/
def mergeLoopF : Nat → List GroupBox → List GroupBox
  | 0, gs => gs
  | fuel + 1, gs =>
    match scanI [] gs with
    | none => gs
    | some gs2 => mergeLoopF fuel gs2

/-- The merger merge_overlapping_bubbles of src/visualize_bounds.py.  The
Python function mutates its argument in place and returns the same list
object; this definition computes the returned (= final argument) value. -/
def merge_overlapping_bubbles (gs : List (List TextFragment)) : List (List TextFragment) :=
  if gs.length ≤ 1 then gs
  else (mergeLoopF gs.length (gs.map (fun g => (g, bboxOf g)))).map Prod.fst

/-- Post-call contents of the caller's argument to merge_overlapping_bubbles:
the Python code extends and pops entries of the argument list itself, so
after the call the argument holds exactly the merged result. -/
def merge_overlapping_bubbles_argAfter (gs : List (List TextFragment)) :
    List (List TextFragment) :=
  merge_overlapping_bubbles gs

/-- Bounding-box area of a group, Python `(max_x - min_x) * (max_y - min_y)`. -/
def bubbleArea (g : List TextFragment) : Int :=
  ((bboxOf g).maxX - (bboxOf g).minX) * ((bboxOf g).maxY - (bboxOf g).minY)

/-- Modelled from Python list comparison, as reached by tuple comparison in
`bubble_areas.sort(reverse=True)` when two areas are equal: scan for the
first unequal element pair; ordering two unequal dicts raises TypeError,
equal prefixes fall back to comparing lengths. -/
def cmpFragLists : List TextFragment → List TextFragment → Except String Ordering
  | [], [] => .ok .eq
  | [], _ :: _ => .ok .lt
  | _ :: _, [] => .ok .gt
  | a :: t, b :: u => if a = b then cmpFragLists t u else .error "TypeError"

/-- Python comparison of the (area, bubble) tuples built by
filter_and_prioritize_bubbles: areas first, the fragment lists only on an
area tie. -/
def cmpAreaGroup (a b : Int × List TextFragment) : Except String Ordering :=
  if a.1 < b.1 then .ok .lt
  else if b.1 < a.1 then .ok .gt
  else cmpFragLists a.2 b.2

/-- Insertion step of the descending sort model; comparisons may raise, and a
raise aborts the sort exactly as in Python. -/
def insertDescE (x : Int × List TextFragment) :
    List (Int × List TextFragment) → Except String (List (Int × List TextFragment))
  | [] => .ok [x]
  | h :: t => do
    let o ← cmpAreaGroup x h
    match o with
    | .gt => .ok (x :: h :: t)
    | _ => do
      let r ← insertDescE x t
      .ok (h :: r)

/-- Model of `bubble_areas.sort(reverse=True)`: a comparison-based descending
sort.  On lists whose areas are pairwise distinct every correct sort
produces the same output as timsort; on an area tie between two unequal
groups both this sort and timsort compare the tied pair and raise. -/
def sortDescE : List (Int × List TextFragment) → Except String (List (Int × List TextFragment))
  | [] => .ok []
  | h :: t => do
    let r ← sortDescE t
    insertDescE h r

/-- The prioritizer filter_and_prioritize_bubbles of src/visualize_bounds.py:
lists no longer than max_bubbles pass through unchanged, otherwise the
groups are paired with their bounding-box areas, tuple-sorted descending,
and the first max_bubbles groups are kept. -/
def filter_and_prioritize_bubbles (gs : List (List TextFragment)) (max_bubbles : Nat) :
    Except String (List (List TextFragment)) :=
  if gs.length ≤ max_bubbles then .ok gs
  else do
    let sorted ← sortDescE (gs.map (fun g => (bubbleArea g, g)))
    .ok ((sorted.take max_bubbles).map Prod.snd)

/-- A persisted bubble record, the dictionaries save_final_bounds appends to
final_data['bubbles']. -/
structure BubbleRecord where
  bubble_number : Nat
  x : Int
  y : Int
  width : Int
  height : Int
  text : String
  text_regions : List TextFragment
deriving DecidableEq

/-- Record-building core of save_final_bounds of src/visualize_bounds.py
(the surrounding JSON envelope and file writing are external I/O): the i-th
group produces bubble number i+1, its union bounding box, and the member
texts joined by single spaces. -/
def save_final_bounds (bubble_groups : List (List TextFragment)) : List BubbleRecord :=
  bubble_groups.enum.map (fun p =>
    { bubble_number := p.1 + 1
      x := (bboxOf p.2).minX
      y := (bboxOf p.2).minY
      width := (bboxOf p.2).maxX - (bboxOf p.2).minX
      height := (bboxOf p.2).maxY - (bboxOf p.2).minY
      text := String.intercalate " " (p.2.map (fun f => f.text))
      text_regions := p.2 })

/-- Font-metrics provider, the external collaborator behind PIL ImageFont:
textWidth s str models `truetype(path, s).getbbox(str)[2]` and tgBottom s
models `truetype(path, s).getbbox("Tg")[3]`. -/
structure FontMetrics where
  textWidth : Nat → String → Nat
  tgBottom : Nat → Nat

/-- Python-style slice prefix `word[:n]` (Python indexes by code point, as
does the Lean Char list underlying a String). -/
def pyTake (s : String) (n : Nat) : String := ⟨s.data.take n⟩

/-- Python-style slice suffix `word[n:]`. -/
def pyDrop (s : String) (n : Nat) : String := ⟨s.data.drop n⟩

/-- Code-point length of a string, Python len(). -/
def pyLen (s : String) : Nat := s.data.length

/-- Character walk behind splitWords; the second argument accumulates the
current word reversed. -/
def splitWordsCh : List Char → List Char → List String
  | [], cur => if cur.isEmpty then [] else [⟨cur.reverse⟩]
  | c :: rest, cur =>
    if c.isWhitespace then
      if cur.isEmpty then splitWordsCh rest []
      else ⟨cur.reverse⟩ :: splitWordsCh rest []
    else splitWordsCh rest (c :: cur)

/-- Python str.split() with no argument: split on whitespace runs, dropping
empty pieces. -/
def splitWords (text : String) : List String :=
  splitWordsCh text.data []

/-- Cut a character list into pieces of at most width characters (fuel is the
list length, which always suffices for width ≥ 1). -/
def chunksCh (width : Nat) : Nat → List Char → List (List Char)
  | _, [] => []
  | 0, l => [l]
  | fuel + 1, l => l.take width :: chunksCh width fuel (l.drop width)

/-- Break one overlong word into pieces of at most width characters. -/
def chunkWord (width : Nat) (s : String) : List String :=
  (chunksCh width (pyLen s) s.data).map (fun l => ⟨l⟩)

/-- Greedy character-count line packing: append the next word when the line
plus a separating space still has at most width characters. -/
def packWords (width : Nat) : List String → String → List String
  | [], cur => if cur = "" then [] else [cur]
  | w :: ws, cur =>
    if cur = "" then packWords width ws w
    else if pyLen cur + 1 + pyLen w ≤ width then packWords width ws (cur ++ " " ++ w)
    else cur :: packWords width ws w

/-- Modelled from Python textwrap.wrap with its default options (the standard
library the code calls): greedy fill of whitespace-delimited words to a
character budget, overlong words broken (break_long_words).  The raising
behaviour of textwrap on width ≤ 0 is handled by the caller model. -/
def textwrap_wrap (text : String) (width : Nat) : List String :=
  packWords width ((splitWords text).flatMap (chunkWord width)) ""

/-- Width acceptance for a single line at font size s in bubble width bw:
measured width at most bw * 0.95, in exact arithmetic 20*w ≤ 19*bw. -/
def fitsW (M : FontMetrics) (s bw : Nat) (line : String) : Bool :=
  decide (20 * M.textWidth s line ≤ 19 * bw)

/-- Line height at a size, Python `font.getbbox("Tg")[3] + 4`. -/
def lineHeightAt (M : FontMetrics) (s : Nat) : Nat := M.tgBottom s + 4

/-- Height acceptance for a block of numLines lines: total height at most
bh * 0.95. -/
def fitsBlockH (M : FontMetrics) (s bh numLines : Nat) : Bool :=
  decide (20 * (numLines * lineHeightAt M s) ≤ 19 * bh)

/-- Candidate hyphenation segment `remaining_word[:i]` plus a trailing
hyphen except when i reaches the end of the remaining word. -/
def hyphenSeg (word : String) (i : Nat) : String :=
  if i < pyLen word then pyTake word i ++ "-" else pyTake word i

/-- Python `for i in range(len(remaining_word), 0, -1)` searching the longest
fitting segment: descending scan, first hit. -/
def findCutAux (M : FontMetrics) (s bw : Nat) (word : String) : Nat → Option Nat
  | 0 => none
  | i + 1 =>
    if fitsW M s bw (hyphenSeg word (i + 1)) then some (i + 1)
    else findCutAux M s bw word i

/-- Hyphenation loop body for one overlong word: repeatedly emit the longest
fitting hyphenated segment, or force-break a single character when not even
one character fits.  Fuel is the remaining length; every step consumes at
least one character so the initial length always suffices. -/
def hyphenateF (M : FontMetrics) (s bw : Nat) : Nat → String → List String
  | 0, _ => []
  | fuel + 1, word =>
    if pyLen word = 0 then []
    else
      match findCutAux M s bw word (pyLen word) with
      | some i => hyphenSeg word i :: hyphenateF M s bw fuel (pyDrop word i)
      | none => pyTake word 1 :: hyphenateF M s bw fuel (pyDrop word 1)

/-- Hyphenation of one overlong word, Python lines 205-227 / 267-288 of
src/insert_translated_text.py. -/
def hyphenate (M : FontMetrics) (s bw : Nat) (word : String) : List String :=
  hyphenateF M s bw (pyLen word) word

/-- Python `test_line = current_line + " " + word if current_line else word`. -/
def testLine (cur w : String) : String :=
  if cur = "" then w else cur ++ " " ++ w

/-- Python `if current_line: lines.append(current_line)`. -/
def flushCur (lines : List String) (cur : String) : List String :=
  lines ++ (if cur = "" then [] else [cur])

/-- Word loop of the measured-width wrap with hyphenation fallback (step 2 of
fit_text_to_bubble): state is (emitted lines, current line). -/
def wrapHyGo (M : FontMetrics) (s bw : Nat) :
    List String → List String → String → List String
  | [], lines, cur => flushCur lines cur
  | w :: ws, lines, cur =>
    if fitsW M s bw (testLine cur w) then wrapHyGo M s bw ws lines (testLine cur w)
    else if !fitsW M s bw w then
      wrapHyGo M s bw ws (flushCur lines cur ++ hyphenate M s bw w) ""
    else
      wrapHyGo M s bw ws (flushCur lines cur) w

/-- Step 2 of fit_text_to_bubble: measured-width greedy wrap of text.split()
with hyphenation of overlong words. -/
def wrapHy (M : FontMetrics) (s bw : Nat) (text : String) : List String :=
  wrapHyGo M s bw (splitWords text) [] ""

/-- One candidate font size of the scan in fit_text_to_bubble.  Python first
calls textwrap.wrap with width int(bubble_width * 0.9 / m-width): a zero
m-width raises ZeroDivisionError and a computed width of 0 makes
textwrap.wrap raise ValueError.  Otherwise accept the wrap when every
measured line width and the block height fit, else accept the hyphenated
wrap when the block height fits, else report this size as failed (none). -/
def attemptAt (M : FontMetrics) (text : String) (bw bh s : Nat) :
    Except String (Option (Nat × List String × Nat)) :=
  let lh := lineHeightAt M s
  let mW := M.textWidth s "m"
  if mW = 0 then .error "ZeroDivisionError"
  else
    let wrapW := 9 * bw / (10 * mW)
    if wrapW = 0 then .error "ValueError"
    else
      let lines1 := textwrap_wrap text wrapW
      if lines1.all (fitsW M s bw) && fitsBlockH M s bh lines1.length then
        .ok (some (s, lines1, lh))
      else
        let lines2 := wrapHy M s bw text
        if fitsBlockH M s bh lines2.length then .ok (some (s, lines2, lh))
        else .ok none

/-- Unconditional minimum-size result used when the scan exhausts all sizes:
the hyphenated wrap at size 12, Python lines 243-297. -/
def fallbackTriple (M : FontMetrics) (text : String) (bw : Nat) :
    Nat × List String × Nat :=
  (12, wrapHy M 12 bw text, lineHeightAt M 12)

/-- Descending scan over candidate sizes, stopping at the first size whose
attempt succeeds and propagating any raise. -/
def scanSizes (M : FontMetrics) (text : String) (bw bh : Nat) :
    List Nat → Except String (Nat × List String × Nat)
  | [] => .ok (fallbackTriple M text bw)
  | s :: rest =>
    match attemptAt M text bw bh s with
    | .error e => .error e
    | .ok (some r) => .ok r
    | .ok none => scanSizes M text bw bh rest

/-- The candidate sizes of fit_text_to_bubble, Python
`range(max_font_size, min_font_size - 1, -1)` with the local constants
max_font_size = 64 and min_font_size = 12: the list 64, 63, ..., 12. -/
def fitSizes : List Nat := (List.range 53).map (fun k => 64 - k)

/-- The layout engine fit_text_to_bubble of src/insert_translated_text.py.
The font_size parameter mirrors the Python signature; the Python body never
reads it (the scan bounds are the local constants 64 and 12). -/
def fit_text_to_bubble (M : FontMetrics) (text : String)
    (bubble_width bubble_height font_size : Nat) :
    Except String (Nat × List String × Nat) :=
  scanSizes M text bubble_width bubble_height fitSizes

/-- Width of a string as the sum of per-character advances; a simple shape
for concrete font-metrics instances. -/
def addCharWidths (cw : Nat → Char → Nat) (s : Nat) (str : String) : Nat :=
  (str.data.map (cw s)).sum

/-- A plain proportional font model: every character advances half the point
size, and the Tg bounding box reaches the point size. -/
def stdMetrics : FontMetrics :=
  ⟨addCharWidths (fun s _ => s / 2), fun s => s⟩

/-- A font model with one double-width glyph (a fullwidth or em-width form):
the character W advances two point sizes, everything else half. -/
def wideMetrics : FontMetrics :=
  ⟨addCharWidths (fun s c => if c = 'W' then 2 * s else s / 2), fun s => s⟩

/-- Well-formed merger state: the stored box is the bounding box of a
nonempty fragment group. -/
def goodGB (gb : GroupBox) : Prop := gb.1 ≠ [] ∧ gb.2 = bboxOf gb.1

/-- Pairwise non-overlap of a list of boxes under the strict rectangle
intersection test. -/
def pairwiseNoOverlap : List BBox → Bool
  | [] => true
  | b :: t => t.all (fun c => !boxesOverlap b c) && pairwiseNoOverlap t

/-- Pure insertion step: where the descending tuple sort places an element
when no comparison raises (all areas distinct). -/
def insertDescP (x : Int × List TextFragment) :
    List (Int × List TextFragment) → List (Int × List TextFragment)
  | [] => [x]
  | h :: t => if h.1 < x.1 then x :: h :: t else h :: insertDescP x t

/-- Pure descending sort by area, the value sortDescE computes when no
comparison raises. -/
def sortDescP : List (Int × List TextFragment) → List (Int × List TextFragment)
  | [] => []
  | h :: t => insertDescP h (sortDescP t)

theorem mem_fitSizes {s : Nat} : s ∈ fitSizes ↔ 12 ≤ s ∧ s ≤ 64 := by
  unfold fitSizes
  simp only [List.mem_map, List.mem_range]
  constructor
  · rintro ⟨k, hk, rfl⟩; omega
  · rintro ⟨h1, h2⟩; exact ⟨64 - s, by omega, by omega⟩

theorem fitSizes_sorted : fitSizes.Pairwise (fun a b => b < a) := by decide

theorem attemptAt_ok_cases (M : FontMetrics) (text : String) (bw bh s : Nat)
    (r : Nat × List String × Nat) (h : attemptAt M text bw bh s = .ok (some r)) :
    r.1 = s ∧ r.2.2 = lineHeightAt M s ∧
    fitsBlockH M s bh r.2.1.length = true ∧
    (r.2.1.all (fitsW M s bw) = true ∨ r.2.1 = wrapHy M s bw text) := by
  simp only [attemptAt] at h
  split at h
  · exact absurd h (by simp)
  · split at h
    · exact absurd h (by simp)
    · split at h
      · rename_i hcond
        rw [Except.ok.injEq, Option.some.injEq] at h
        subst h
        simp only [Bool.and_eq_true] at hcond
        exact ⟨rfl, rfl, hcond.2, Or.inl hcond.1⟩
      · split at h
        · rename_i hcond2
          rw [Except.ok.injEq, Option.some.injEq] at h
          subst h
          exact ⟨rfl, rfl, hcond2, Or.inr rfl⟩
        · exact absurd h (by simp)

theorem scanSizes_ok_inv (M : FontMetrics) (text : String) (bw bh : Nat) :
    ∀ sizes : List Nat, sizes.Pairwise (fun a b => b < a) →
      ∀ r, scanSizes M text bw bh sizes = .ok r →
        (∀ s2 ∈ sizes, r.1 < s2 → attemptAt M text bw bh s2 = .ok none) ∧
        ((r.1 ∈ sizes ∧ attemptAt M text bw bh r.1 = .ok (some r)) ∨
          (r = fallbackTriple M text bw ∧ ∀ s2 ∈ sizes, attemptAt M text bw bh s2 = .ok none)) := by
  intro sizes
  induction sizes with
  | nil =>
    intro _ r h
    unfold scanSizes at h
    rw [Except.ok.injEq] at h
    subst h
    exact ⟨by simp, Or.inr ⟨rfl, by simp⟩⟩
  | cons s0 rest ih =>
    intro hpw r h
    rw [List.pairwise_cons] at hpw
    unfold scanSizes at h
    cases hE : attemptAt M text bw bh s0 with
    | error e => rw [hE] at h; exact absurd h (by simp)
    | ok o =>
      rw [hE] at h
      cases o with
      | some r2 =>
        simp only [Except.ok.injEq] at h
        subst h
        have h1 := (attemptAt_ok_cases M text bw bh s0 r2 hE).1
        constructor
        · intro s2 hs2 hlt
          rcases List.mem_cons.mp hs2 with hh | hh
          · subst hh; omega
          · have := hpw.1 s2 hh; omega
        · exact Or.inl ⟨by rw [h1]; exact List.mem_cons_self _ _, by rw [h1]; exact hE⟩
      | none =>
        simp only at h
        obtain ⟨ih1, ih2⟩ := ih hpw.2 r h
        constructor
        · intro s2 hs2 hlt
          rcases List.mem_cons.mp hs2 with hh | hh
          · subst hh; exact hE
          · exact ih1 s2 hh hlt
        · rcases ih2 with ⟨hm, hat⟩ | ⟨hfb, hall⟩
          · exact Or.inl ⟨List.mem_cons_of_mem _ hm, hat⟩
          · refine Or.inr ⟨hfb, ?_⟩
            intro s2 hs2
            rcases List.mem_cons.mp hs2 with hh | hh
            · subst hh; exact hE
            · exact hall s2 hh

theorem findCutAux_fits (M : FontMetrics) (s bw : Nat) (word : String) :
    ∀ n i, findCutAux M s bw word n = some i → fitsW M s bw (hyphenSeg word i) = true := by
  intro n
  induction n with
  | zero => intro i h; exact absurd h (by simp [findCutAux])
  | succ k ih =>
    intro i h
    unfold findCutAux at h
    split at h
    · rename_i hfit
      rw [Option.some.injEq] at h
      subst h
      exact hfit
    · exact ih i h

theorem pyLen_pyTake_one (word : String) (hw : pyLen word ≠ 0) : pyLen (pyTake word 1) = 1 := by
  unfold pyLen pyTake at *
  cases word with
  | mk data =>
    cases data with
    | nil => simp at hw
    | cons c t => simp [List.take]

theorem hyphenateF_pieces (M : FontMetrics) (s bw : Nat) :
    ∀ fuel word p, p ∈ hyphenateF M s bw fuel word →
      fitsW M s bw p = true ∨ pyLen p = 1 := by
  intro fuel
  induction fuel with
  | zero => intro word p h; exact absurd h (by simp [hyphenateF])
  | succ k ih =>
    intro word p h
    unfold hyphenateF at h
    split at h
    · exact absurd h (by simp)
    · rename_i hw
      split at h
      · rename_i i hcut
        rcases List.mem_cons.mp h with hh | hh
        · subst hh; exact Or.inl (findCutAux_fits M s bw word (pyLen word) i hcut)
        · exact ih _ p hh
      · rcases List.mem_cons.mp h with hh | hh
        · subst hh; exact Or.inr (pyLen_pyTake_one word hw)
        · exact ih _ p hh

theorem flushCur_inv (M : FontMetrics) (s bw : Nat) (lines : List String) (cur : String)
    (hl : ∀ l ∈ lines, fitsW M s bw l = true ∨ pyLen l = 1)
    (hc : cur = "" ∨ fitsW M s bw cur = true) :
    ∀ l ∈ flushCur lines cur, fitsW M s bw l = true ∨ pyLen l = 1 := by
  intro l h
  unfold flushCur at h
  rcases List.mem_append.mp h with hh | hh
  · exact hl l hh
  · rcases hc with hc | hc
    · rw [hc] at hh; simp at hh
    · split at hh
      · simp at hh
      · rw [List.mem_singleton] at hh; subst hh; exact Or.inl hc

theorem wrapHyGo_inv (M : FontMetrics) (s bw : Nat) :
    ∀ ws lines cur,
      (∀ l ∈ lines, fitsW M s bw l = true ∨ pyLen l = 1) →
      (cur = "" ∨ fitsW M s bw cur = true) →
      ∀ l ∈ wrapHyGo M s bw ws lines cur, fitsW M s bw l = true ∨ pyLen l = 1 := by
  intro ws
  induction ws with
  | nil =>
    intro lines cur hl hc l h
    unfold wrapHyGo at h
    exact flushCur_inv M s bw lines cur hl hc l h
  | cons w ws2 ih =>
    intro lines cur hl hc l h
    unfold wrapHyGo at h
    split at h
    · rename_i hfit
      exact ih lines (testLine cur w) hl (Or.inr hfit) l h
    · split at h
      · refine ih _ "" ?_ (Or.inl rfl) l h
        intro l2 hl2
        rcases List.mem_append.mp hl2 with hh | hh
        · exact flushCur_inv M s bw lines cur hl hc l2 hh
        · exact hyphenateF_pieces M s bw _ _ l2 hh
      · rename_i hlong
        refine ih _ w (flushCur_inv M s bw lines cur hl hc) ?_ l h
        rw [Bool.not_eq_true', Bool.not_eq_false] at hlong
        exact Or.inr hlong

theorem wrapHy_lines (M : FontMetrics) (s bw : Nat) (text : String) :
    ∀ l ∈ wrapHy M s bw text, fitsW M s bw l = true ∨ pyLen l = 1 := by
  intro l h
  exact wrapHyGo_inv M s bw (splitWords text) [] "" (by simp) (Or.inl rfl) l h

/-- Claim C1 (amended): fit_text_to_bubble ignores its caller-supplied
font_size argument and scans the fixed size range 64 down to 12.  Whenever it
returns without raising, the returned size lies in that range, at every larger
size in the range the attempt succeeded at neither the wrap check (all
measured line widths and the block height fit) nor the hyphenation fallback
height check, and the returned triple is either the accepted attempt at the
returned size or the unconditional minimum-size fallback. -/
theorem fit_text_scan_largest (M : FontMetrics) (text : String) (bw bh fs : Nat)
    (r : Nat × List String × Nat) (h : fit_text_to_bubble M text bw bh fs = .ok r) :
    (12 ≤ r.1 ∧ r.1 ≤ 64) ∧
    (∀ s2, r.1 < s2 → s2 ≤ 64 → attemptAt M text bw bh s2 = .ok none) ∧
    (attemptAt M text bw bh r.1 = .ok (some r) ∨ r = fallbackTriple M text bw) := by
  unfold fit_text_to_bubble at h
  obtain ⟨h1, h2⟩ := scanSizes_ok_inv M text bw bh fitSizes fitSizes_sorted r h
  have hbounds : 12 ≤ r.1 ∧ r.1 ≤ 64 := by
    rcases h2 with ⟨hm, _⟩ | ⟨hfb, _⟩
    · exact mem_fitSizes.mp hm
    · rw [hfb]; unfold fallbackTriple; exact ⟨by norm_num, by norm_num⟩
  refine ⟨hbounds, ?_, ?_⟩
  · intro s2 hlt hle
    exact h1 s2 (mem_fitSizes.mpr ⟨by omega, hle⟩) hlt
  · rcases h2 with ⟨_, hat⟩ | ⟨hfb, _⟩
    · exact Or.inl hat
    · exact Or.inr hfb

/-- Claim C1, witness: the amended theorem instantiated at a concrete
metrics instance and input, its hypothesis discharged by evaluation. -/
theorem fit_text_scan_largest_witness :
    fit_text_to_bubble stdMetrics "Hi" 1000 1000 20 = .ok (64, ["Hi"], 68) ∧
    ((12 ≤ 64 ∧ 64 ≤ 64) ∧
     (∀ s2, 64 < s2 → s2 ≤ 64 → attemptAt stdMetrics "Hi" 1000 1000 s2 = .ok none) ∧
     (attemptAt stdMetrics "Hi" 1000 1000 64 = .ok (some (64, ["Hi"], 68)) ∨
       (64, ["Hi"], 68) = fallbackTriple stdMetrics "Hi" 1000)) :=
  ⟨rfl, fit_text_scan_largest stdMetrics "Hi" 1000 1000 20 (64, ["Hi"], 68) rfl⟩

/-- Claim C1, counterexample to the claim as stated: with caller-supplied
maximum font size 20 the engine still returns font size 64, because the scan
bounds are the local constants 64 and 12, not the caller argument; the
returned size is outside the claimed scan range from the caller maximum down
to the minimum. -/
theorem fit_ignores_caller_cap_cex :
    fit_text_to_bubble stdMetrics "Hi" 1000 1000 20 = .ok (64, ["Hi"], 68) ∧ ¬(64 ≤ 20) :=
  ⟨rfl, by decide⟩

/-- Claim C3 (amended): every layout returned at a font size strictly above
the minimum satisfies the block-height bound (total height at most 0.95 times
the rectangle height), and every returned line either has measured width at
most 0.95 times the rectangle width or is a single force-broken character
produced by the hyphenation fallback. -/
theorem fit_above_min_fits (M : FontMetrics) (text : String) (bw bh fs : Nat)
    (s : Nat) (L : List String) (lh : Nat)
    (h : fit_text_to_bubble M text bw bh fs = .ok (s, L, lh)) (hs : 12 < s) :
    20 * (L.length * lh) ≤ 19 * bh ∧
    ∀ l ∈ L, 20 * M.textWidth s l ≤ 19 * bw ∨ pyLen l = 1 := by
  unfold fit_text_to_bubble at h
  obtain ⟨_, h2⟩ := scanSizes_ok_inv M text bw bh fitSizes fitSizes_sorted (s, L, lh) h
  rcases h2 with ⟨_, hat⟩ | ⟨hfb, _⟩
  · obtain ⟨_, he2, he3, he4⟩ := attemptAt_ok_cases M text bw bh s (s, L, lh) hat
    have hlh : lh = lineHeightAt M s := he2
    have hH : 20 * (L.length * lh) ≤ 19 * bh := by
      unfold fitsBlockH at he3
      rw [decide_eq_true_eq] at he3
      rw [hlh]
      exact he3
    refine ⟨hH, ?_⟩
    rcases he4 with hall | hwh
    · intro l hl
      have := List.all_eq_true.mp hall l hl
      unfold fitsW at this
      rw [decide_eq_true_eq] at this
      exact Or.inl this
    · intro l hl
      have hwh2 : L = wrapHy M s bw text := hwh
      rw [hwh2] at hl
      rcases wrapHy_lines M s bw text l hl with hh | hh
      · unfold fitsW at hh
        rw [decide_eq_true_eq] at hh
        exact Or.inl hh
      · exact Or.inr hh
  · rw [Prod.ext_iff] at hfb
    have : s = 12 := hfb.1
    omega

/-- Claim C3, witness: the amended theorem instantiated at a concrete
metrics instance and input, hypotheses discharged by evaluation. -/
theorem fit_above_min_fits_witness :
    fit_text_to_bubble stdMetrics "Hi" 1000 1000 16 = .ok (64, ["Hi"], 68) ∧ 12 < 64 ∧
    (20 * (["Hi"].length * 68) ≤ 19 * 1000 ∧
     ∀ l ∈ ["Hi"], 20 * stdMetrics.textWidth 64 l ≤ 19 * 1000 ∨ pyLen l = 1) :=
  ⟨rfl, by decide,
    fit_above_min_fits stdMetrics "Hi" 1000 1000 16 64 ["Hi"] 68 rfl (by decide)⟩

/-- Claim C3, counterexample to the claim as stated: with a font carrying
one double-width glyph, the text WW in a 100 wide, 1000 high rectangle is
returned at size 64, above the minimum, yet the returned line W measures
128 > 0.95 * 100: the hyphenation fallback accepts on height alone, so a
non-degraded layout can overflow the width budget. -/
theorem fit_width_overflow_cex :
    fit_text_to_bubble wideMetrics "WW" 100 1000 16 = .ok (64, ["W", "W"], 68) ∧
    12 < 64 ∧ "W" ∈ ["W", "W"] ∧ ¬(20 * wideMetrics.textWidth 64 "W" ≤ 19 * 100) :=
  ⟨rfl, by decide, by decide, by decide⟩

/-- Claim C2, failing input: on the degraded-mode example of the claim
(rectangle width 5, height 200, one long word) the engine raises instead of
returning a one-character-per-line layout: at the first scanned size the
computed wrap width int(5 * 0.9 / m-width) is 0, and textwrap.wrap raises
ValueError on a non-positive width. -/
theorem fit_degraded_example_raises :
    fit_text_to_bubble stdMetrics "Supercalifragilisticoexpialidoso" 5 200 16 =
      .error "ValueError" := rfl

/-- Claim C10: two calls to fit_text_to_bubble whose arguments differ only
in the font_size parameter return identical triples: the parameter is never
read by the body and the candidate scan is fixed at 64 down to 12. -/
theorem fit_font_size_arg_unused (M : FontMetrics) (text : String) (bw bh fs1 fs2 : Nat) :
    fit_text_to_bubble M text bw bh fs1 = fit_text_to_bubble M text bw bh fs2 := rfl

theorem foldl_min_pull (l : List Int) : ∀ x y : Int, l.foldl min (min x y) = min x (l.foldl min y) := by
  induction l with
  | nil => intro x y; rfl
  | cons c t ih =>
    intro x y
    simp only [List.foldl_cons]
    rw [min_assoc, ih]

theorem foldl_max_pull (l : List Int) : ∀ x y : Int, l.foldl max (max x y) = max x (l.foldl max y) := by
  induction l with
  | nil => intro x y; rfl
  | cons c t ih =>
    intro x y
    simp only [List.foldl_cons]
    rw [max_assoc, ih]

theorem listMinI_append (a b : List Int) (ha : a ≠ []) (hb : b ≠ []) :
    listMinI (a ++ b) = min (listMinI a) (listMinI b) := by
  rcases a with _ | ⟨v, t⟩
  · exact absurd rfl ha
  rcases b with _ | ⟨w, u⟩
  · exact absurd rfl hb
  show (t ++ w :: u).foldl min v = min (t.foldl min v) (u.foldl min w)
  rw [List.foldl_append, List.foldl_cons, foldl_min_pull]

theorem listMaxI_append (a b : List Int) (ha : a ≠ []) (hb : b ≠ []) :
    listMaxI (a ++ b) = max (listMaxI a) (listMaxI b) := by
  rcases a with _ | ⟨v, t⟩
  · exact absurd rfl ha
  rcases b with _ | ⟨w, u⟩
  · exact absurd rfl hb
  show (t ++ w :: u).foldl max v = max (t.foldl max v) (u.foldl max w)
  rw [List.foldl_append, List.foldl_cons, foldl_max_pull]

theorem bboxOf_append (g h : List TextFragment) (hg : g ≠ []) (hh : h ≠ []) :
    bboxOf (g ++ h) = boxUnion (bboxOf g) (bboxOf h) := by
  unfold bboxOf boxUnion
  simp only [List.map_append]
  rw [listMinI_append _ _ (by simpa using hg) (by simpa using hh),
    listMinI_append _ _ (by simpa using hg) (by simpa using hh),
    listMaxI_append _ _ (by simpa using hg) (by simpa using hh),
    listMaxI_append _ _ (by simpa using hg) (by simpa using hh)]


theorem sweepJ_eq_false (t : List GroupBox) : ∀ gi : GroupBox, (sweepJ gi t).2.2 = false →
    sweepJ gi t = (gi, t, false) ∧ ∀ g ∈ t, boxesOverlap gi.2 g.2 = false := by
  induction t with
  | nil => intro gi _; exact ⟨rfl, by simp⟩
  | cons g t2 ih =>
    intro gi h
    simp only [sweepJ] at h ⊢
    cases hov : boxesOverlap gi.2 g.2 with
    | true => simp [hov] at h
    | false =>
      simp only [hov, Bool.false_eq_true, if_false] at h ⊢
      obtain ⟨h1, h2⟩ := ih gi h
      rw [h1]
      refine ⟨rfl, ?_⟩
      intro g2 hg2
      rcases List.mem_cons.mp hg2 with hh | hh
      · subst hh; exact hov
      · exact h2 g2 hh

theorem sweepJ_no_overlap (t : List GroupBox) : ∀ gi : GroupBox,
    (∀ g ∈ t, boxesOverlap gi.2 g.2 = false) → sweepJ gi t = (gi, t, false) := by
  induction t with
  | nil => intro gi _; rfl
  | cons g t2 ih =>
    intro gi h
    have hov := h g (List.mem_cons_self _ _)
    simp only [sweepJ, hov, Bool.false_eq_true, if_false]
    rw [ih gi (fun g2 hg2 => h g2 (List.mem_cons_of_mem _ hg2))]

theorem sweepJ_shrink (t : List GroupBox) : ∀ gi : GroupBox,
    (sweepJ gi t).2.1.length ≤ t.length ∧
    ((sweepJ gi t).2.2 = true → (sweepJ gi t).2.1.length < t.length) := by
  induction t with
  | nil => intro gi; exact ⟨le_refl _, by simp [sweepJ]⟩
  | cons g t2 ih =>
    intro gi
    simp only [sweepJ]
    cases hov : boxesOverlap gi.2 g.2 with
    | true =>
      simp only [if_true]
      have h1 := (ih (gi.1 ++ g.1, boxUnion gi.2 g.2)).1
      exact ⟨by simp only [List.length_cons]; omega,
        fun _ => by simp only [List.length_cons]; omega⟩
    | false =>
      simp only [Bool.false_eq_true, if_false]
      have h1 := (ih gi).1
      have h2 := (ih gi).2
      constructor
      · simp only [List.length_cons]; omega
      · intro hf
        have := h2 hf
        simp only [List.length_cons]; omega

theorem perm_swap_append {α : Type} (a b c : List α) : List.Perm (a ++ (b ++ c)) (b ++ (a ++ c)) := by
  have h1 : a ++ (b ++ c) = (a ++ b) ++ c := by rw [List.append_assoc]
  have h2 : (b ++ a) ++ c = b ++ (a ++ c) := by rw [List.append_assoc]
  rw [h1, ← h2]
  exact (List.perm_append_comm).append_right c

theorem sweepJ_frags (t : List GroupBox) : ∀ gi : GroupBox,
    List.Perm ((sweepJ gi t).1.1 ++ ((sweepJ gi t).2.1.map Prod.fst).flatten)
      (gi.1 ++ (t.map Prod.fst).flatten) := by
  induction t with
  | nil => intro gi; simp [sweepJ]
  | cons g t2 ih =>
    intro gi
    simp only [sweepJ, List.map_cons, List.flatten_cons]
    cases hov : boxesOverlap gi.2 g.2 with
    | true =>
      simp only [if_true]
      refine (ih (gi.1 ++ g.1, boxUnion gi.2 g.2)).trans ?_
      rw [List.append_assoc]
    | false =>
      simp only [Bool.false_eq_true, if_false, List.map_cons, List.flatten_cons]
      have hstep1 := perm_swap_append (sweepJ gi t2).1.1 g.1 ((sweepJ gi t2).2.1.map Prod.fst).flatten
      have hstep2 := (ih gi).append_left g.1
      have hstep3 := perm_swap_append g.1 gi.1 (t2.map Prod.fst).flatten
      exact (hstep1.trans hstep2).trans hstep3

theorem sweepJ_good (t : List GroupBox) : ∀ gi : GroupBox, goodGB gi →
    (∀ g ∈ t, goodGB g) →
    goodGB (sweepJ gi t).1 ∧ ∀ g ∈ (sweepJ gi t).2.1, goodGB g := by
  induction t with
  | nil => intro gi hgi _; exact ⟨hgi, by simp [sweepJ]⟩
  | cons g t2 ih =>
    intro gi hgi ht
    have hg := ht g (List.mem_cons_self _ _)
    have ht2 : ∀ g2 ∈ t2, goodGB g2 := fun g2 hg2 => ht g2 (List.mem_cons_of_mem _ hg2)
    simp only [sweepJ]
    cases hov : boxesOverlap gi.2 g.2 with
    | true =>
      simp only [if_true]
      have hgi2 : goodGB (gi.1 ++ g.1, boxUnion gi.2 g.2) := by
        constructor
        · simp [hgi.1]
        · show boxUnion gi.2 g.2 = bboxOf (gi.1 ++ g.1)
          rw [bboxOf_append gi.1 g.1 hgi.1 hg.1, hgi.2, hg.2]
      exact ih _ hgi2 ht2
    | false =>
      simp only [Bool.false_eq_true, if_false]
      obtain ⟨ih1, ih2⟩ := ih gi hgi ht2
      refine ⟨ih1, ?_⟩
      intro g2 hg2
      rcases List.mem_cons.mp hg2 with hh | hh
      · subst hh; exact hg
      · exact ih2 g2 hh

theorem scanI_none_pairwise (rest : List GroupBox) : ∀ acc, scanI acc rest = none →
    rest.Pairwise (fun a b => boxesOverlap a.2 b.2 = false) := by
  induction rest with
  | nil => intro _ _; exact List.Pairwise.nil
  | cons g t ih =>
    intro acc h
    simp only [scanI] at h
    cases hflag : (sweepJ g t).2.2 with
    | true => simp [hflag] at h
    | false =>
      simp only [hflag, Bool.false_eq_true, if_false] at h
      obtain ⟨_, hov⟩ := sweepJ_eq_false t g hflag
      exact List.pairwise_cons.mpr ⟨hov, ih (acc ++ [g]) h⟩

theorem scanI_of_pairwise (rest : List GroupBox) : ∀ acc,
    rest.Pairwise (fun a b => boxesOverlap a.2 b.2 = false) → scanI acc rest = none := by
  induction rest with
  | nil => intro _ _; rfl
  | cons g t ih =>
    intro acc h
    rw [List.pairwise_cons] at h
    have hS := sweepJ_no_overlap t g h.1
    simp only [scanI, hS, Bool.false_eq_true, if_false]
    exact ih (acc ++ [g]) h.2

theorem scanI_some_len (rest : List GroupBox) : ∀ acc out, scanI acc rest = some out →
    out.length < acc.length + rest.length := by
  induction rest with
  | nil => intro acc out h; simp [scanI] at h
  | cons g t ih =>
    intro acc out h
    simp only [scanI] at h
    cases hflag : (sweepJ g t).2.2 with
    | true =>
      simp only [hflag, if_true, Option.some.injEq] at h
      subst h
      have hlt := (sweepJ_shrink t g).2 hflag
      simp only [List.length_append, List.length_cons]
      omega
    | false =>
      simp only [hflag, Bool.false_eq_true, if_false] at h
      have := ih (acc ++ [g]) out h
      simp only [List.length_append, List.length_cons, List.length_nil] at this ⊢
      omega

theorem scanI_some_frags (rest : List GroupBox) : ∀ acc out, scanI acc rest = some out →
    List.Perm ((out.map Prod.fst).flatten) (((acc ++ rest).map Prod.fst).flatten) := by
  induction rest with
  | nil => intro acc out h; simp [scanI] at h
  | cons g t ih =>
    intro acc out h
    simp only [scanI] at h
    cases hflag : (sweepJ g t).2.2 with
    | true =>
      simp only [hflag, if_true, Option.some.injEq] at h
      subst h
      simp only [List.map_append, List.map_cons, List.flatten_append, List.flatten_cons]
      refine List.Perm.append_left _ ?_
      exact sweepJ_frags t g
    | false =>
      simp only [hflag, Bool.false_eq_true, if_false] at h
      have := ih (acc ++ [g]) out h
      have heq : (acc ++ [g]) ++ t = acc ++ g :: t := by
        rw [List.append_assoc]; rfl
      rw [heq] at this
      exact this

theorem scanI_some_good (rest : List GroupBox) : ∀ acc out, scanI acc rest = some out →
    (∀ g ∈ acc, goodGB g) → (∀ g ∈ rest, goodGB g) → ∀ g ∈ out, goodGB g := by
  induction rest with
  | nil => intro acc out h; simp [scanI] at h
  | cons g t ih =>
    intro acc out h hacc hrest
    have hg := hrest g (List.mem_cons_self _ _)
    have ht : ∀ g2 ∈ t, goodGB g2 := fun g2 hg2 => hrest g2 (List.mem_cons_of_mem _ hg2)
    simp only [scanI] at h
    cases hflag : (sweepJ g t).2.2 with
    | true =>
      simp only [hflag, if_true, Option.some.injEq] at h
      subst h
      obtain ⟨hgood1, hgood2⟩ := sweepJ_good t g hg ht
      intro g2 hg2
      rcases List.mem_append.mp hg2 with hh | hh
      · exact hacc g2 hh
      · rcases List.mem_cons.mp hh with hh2 | hh2
        · subst hh2; exact hgood1
        · exact hgood2 g2 hh2
    | false =>
      simp only [hflag, Bool.false_eq_true, if_false] at h
      refine ih (acc ++ [g]) out h ?_ ht
      intro g2 hg2
      rcases List.mem_append.mp hg2 with hh | hh
      · exact hacc g2 hh
      · rw [List.mem_singleton] at hh; subst hh; exact hg

theorem mergeLoopF_fix : ∀ fuel gs, gs.length ≤ fuel → scanI [] (mergeLoopF fuel gs) = none := by
  intro fuel
  induction fuel with
  | zero =>
    intro gs hlen
    have : gs = [] := List.length_eq_zero.mp (Nat.le_zero.mp hlen)
    subst this
    rfl
  | succ k ih =>
    intro gs hlen
    unfold mergeLoopF
    cases hS : scanI [] gs with
    | none => exact hS
    | some gs2 =>
      have := scanI_some_len gs [] gs2 hS
      exact ih gs2 (by simp at this; omega)

theorem mergeLoopF_frags : ∀ fuel gs,
    List.Perm (((mergeLoopF fuel gs).map Prod.fst).flatten) ((gs.map Prod.fst).flatten) := by
  intro fuel
  induction fuel with
  | zero => intro gs; exact List.Perm.refl _
  | succ k ih =>
    intro gs
    unfold mergeLoopF
    cases hS : scanI [] gs with
    | none => exact List.Perm.refl _
    | some gs2 =>
      have h1 := ih gs2
      have h2 := scanI_some_frags gs [] gs2 hS
      simp only [List.nil_append] at h2
      exact h1.trans h2

theorem mergeLoopF_good : ∀ fuel gs, (∀ g ∈ gs, goodGB g) →
    ∀ g ∈ mergeLoopF fuel gs, goodGB g := by
  intro fuel
  induction fuel with
  | zero => intro gs h; exact h
  | succ k ih =>
    intro gs h
    unfold mergeLoopF
    cases hS : scanI [] gs with
    | none => exact h
    | some gs2 =>
      exact ih gs2 (scanI_some_good gs [] gs2 hS (by simp) h)

theorem mergeLoopF_of_none (gs : List GroupBox) (h : scanI [] gs = none) :
    ∀ fuel, mergeLoopF fuel gs = gs := by
  intro fuel
  cases fuel with
  | zero => rfl
  | succ k => unfold mergeLoopF; rw [h]


theorem pairwiseNoOverlap_iff (l : List BBox) : pairwiseNoOverlap l = true ↔
    l.Pairwise (fun a b => boxesOverlap a b = false) := by
  induction l with
  | nil => simp [pairwiseNoOverlap]
  | cons b t ih =>
    simp only [pairwiseNoOverlap, Bool.and_eq_true, List.all_eq_true, List.pairwise_cons]
    rw [ih]
    constructor
    · rintro ⟨h1, h2⟩
      exact ⟨fun c hc => by simpa using h1 c hc, h2⟩
    · rintro ⟨h1, h2⟩
      exact ⟨fun c hc => by simp [h1 c hc], h2⟩

theorem merge_frags_perm (gs : List (List TextFragment)) :
    List.Perm (merge_overlapping_bubbles gs).flatten gs.flatten := by
  unfold merge_overlapping_bubbles
  split
  · exact List.Perm.refl _
  · have h := mergeLoopF_frags gs.length (gs.map (fun g => (g, bboxOf g)))
    have heq : (gs.map (fun g => (g, bboxOf g))).map Prod.fst = gs := by
      rw [List.map_map]
      exact List.map_id gs
    rw [heq] at h
    exact h

theorem merge_boxes_disjoint (gs : List (List TextFragment)) (hne : ∀ g ∈ gs, g ≠ []) :
    pairwiseNoOverlap ((merge_overlapping_bubbles gs).map bboxOf) = true := by
  unfold merge_overlapping_bubbles
  split
  · rename_i hlen
    rcases gs with _ | ⟨a, _ | ⟨b, t⟩⟩
    · rfl
    · rfl
    · exfalso; simp only [List.length_cons] at hlen; omega
  · have hgood : ∀ p ∈ gs.map (fun g => (g, bboxOf g)), goodGB p := by
      intro p hp
      rw [List.mem_map] at hp
      obtain ⟨g, hgmem, rfl⟩ := hp
      exact ⟨hne g hgmem, rfl⟩
    have hfix := mergeLoopF_fix gs.length (gs.map (fun g => (g, bboxOf g)))
      (by rw [List.length_map])
    have hpw := scanI_none_pairwise _ [] hfix
    have hgood2 := mergeLoopF_good gs.length (gs.map (fun g => (g, bboxOf g))) hgood
    rw [pairwiseNoOverlap_iff, List.map_map, List.pairwise_map]
    refine List.Pairwise.imp_of_mem ?_ hpw
    intro a b ha hb hab
    show boxesOverlap (bboxOf a.1) (bboxOf b.1) = false
    rw [← (hgood2 a ha).2, ← (hgood2 b hb).2]
    exact hab

/-- Claim C7 (amended): merge_overlapping_bubbles mutates its argument in
place and returns that same list, so after a call the caller argument holds
the merged result; the argument is left unchanged precisely on inputs whose
group bounding boxes are pairwise non-overlapping, proved here for every such
input. -/
theorem merge_argAfter_unchanged_of_disjoint (gs : List (List TextFragment))
    (h : pairwiseNoOverlap (gs.map bboxOf) = true) :
    merge_overlapping_bubbles_argAfter gs = gs := by
  unfold merge_overlapping_bubbles_argAfter merge_overlapping_bubbles
  split
  · rfl
  · have hpw := (pairwiseNoOverlap_iff _).mp h
    rw [List.pairwise_map] at hpw
    have hpw2 : (gs.map (fun g => (g, bboxOf g))).Pairwise
        (fun a b => boxesOverlap a.2 b.2 = false) := by
      rw [List.pairwise_map]
      exact hpw
    rw [mergeLoopF_of_none _ (scanI_of_pairwise _ [] hpw2), List.map_map]
    exact List.map_id gs

/-- Claim C7, witness: the amended theorem instantiated at two
non-overlapping one-fragment groups, hypothesis discharged by evaluation. -/
theorem merge_argAfter_unchanged_witness :
    pairwiseNoOverlap
      ([[(⟨0, 0, 10, 10, "u", 90⟩ : TextFragment)], [⟨100, 0, 10, 10, "v", 90⟩]].map bboxOf)
        = true ∧
    merge_overlapping_bubbles_argAfter
      [[(⟨0, 0, 10, 10, "u", 90⟩ : TextFragment)], [⟨100, 0, 10, 10, "v", 90⟩]] =
      [[(⟨0, 0, 10, 10, "u", 90⟩ : TextFragment)], [⟨100, 0, 10, 10, "v", 90⟩]] :=
  ⟨by decide, merge_argAfter_unchanged_of_disjoint _ (by decide)⟩

/-- Claim C7, counterexample to the claim as stated: on two overlapping
one-fragment groups the contents of the caller argument after the call differ
from the value passed in, because the function merges the groups in place and
returns the same object. -/
theorem merge_mutates_argument_cex :
    merge_overlapping_bubbles_argAfter
      [[(⟨0, 0, 10, 10, "x", 90⟩ : TextFragment)], [⟨5, 5, 10, 10, "y", 90⟩]] ≠
      [[(⟨0, 0, 10, 10, "x", 90⟩ : TextFragment)], [⟨5, 5, 10, 10, "y", 90⟩]] := by decide

theorem filter_flatten_perm {α : Type} (p : List α → Bool) (l : List (List α)) :
    List.Perm ((l.filter p).flatten ++ (l.filter (fun d => !p d)).flatten) l.flatten := by
  induction l with
  | nil => simp
  | cons c t ih =>
    cases hp : p c with
    | true =>
      rw [List.filter_cons_of_pos hp, List.filter_cons_of_neg (by simp [hp])]
      simp only [List.flatten_cons]
      rw [List.append_assoc]
      exact (ih.append_left c)
    | false =>
      rw [List.filter_cons_of_neg (by simp [hp]), List.filter_cons_of_pos (by simp [hp])]
      simp only [List.flatten_cons]
      exact (perm_swap_append _ _ _).trans (ih.append_left c)

theorem addPoint_flatten (adj : Nat → Nat → Bool) (i : Nat) :
    ∀ comps : List (List Nat),
      List.Perm (addPoint adj i comps).flatten (i :: comps.flatten) := by
  intro comps
  induction comps with
  | nil => simp [addPoint]
  | cons c rest ih =>
    unfold addPoint
    split
    · simp only [List.flatten_cons]
      have hassoc : (c ++ (rest.filter (fun d => d.any (fun j => adj j i))).flatten ++ [i]) ++
          (rest.filter (fun d => !d.any (fun j => adj j i))).flatten =
          c ++ ((rest.filter (fun d => d.any (fun j => adj j i))).flatten ++
            (i :: (rest.filter (fun d => !d.any (fun j => adj j i))).flatten)) := by
        simp [List.append_assoc]
      rw [hassoc]
      have hmid := @List.perm_middle Nat i
        ((rest.filter (fun d => d.any (fun j => adj j i))).flatten)
        ((rest.filter (fun d => !d.any (fun j => adj j i))).flatten)
      have hfl := filter_flatten_perm (fun d => d.any (fun j => adj j i)) rest
      have hin : List.Perm
          ((rest.filter (fun d => d.any (fun j => adj j i))).flatten ++
            (i :: (rest.filter (fun d => !d.any (fun j => adj j i))).flatten))
          (i :: rest.flatten) :=
        hmid.trans (hfl.cons i)
      exact (hin.append_left c).trans (@List.perm_middle Nat i c rest.flatten)
    · simp only [List.flatten_cons]
      exact ((ih.append_left c)).trans (@List.perm_middle Nat i c rest.flatten)

theorem foldl_addPoint_flatten (adj : Nat → Nat → Bool) :
    ∀ (l : List Nat) (comps : List (List Nat)),
      List.Perm ((l.foldl (fun cs i => addPoint adj i cs) comps).flatten)
        (l ++ comps.flatten) := by
  intro l
  induction l with
  | nil => intro comps; simp
  | cons i l2 ih =>
    intro comps
    simp only [List.foldl_cons, List.cons_append]
    refine (ih (addPoint adj i comps)).trans ?_
    refine ((addPoint_flatten adj i comps).append_left l2).trans ?_
    exact @List.perm_middle Nat i l2 comps.flatten

theorem dbscanComponents_flatten (adj : Nat → Nat → Bool) (n : Nat) :
    List.Perm (dbscanComponents adj n).flatten (List.range n) := by
  unfold dbscanComponents
  have := foldl_addPoint_flatten adj (List.range n) []
  simpa using this

theorem addPoint_ne (adj : Nat → Nat → Bool) (i : Nat) :
    ∀ comps : List (List Nat), (∀ c ∈ comps, c ≠ []) →
      ∀ c ∈ addPoint adj i comps, c ≠ [] := by
  intro comps
  induction comps with
  | nil =>
    intro _ c hc
    simp only [addPoint, List.mem_singleton] at hc
    subst hc
    simp
  | cons c0 rest ih =>
    intro h c hc
    unfold addPoint at hc
    split at hc
    · rcases List.mem_cons.mp hc with hh | hh
      · subst hh; simp
      · exact h _ (List.mem_cons_of_mem _ (List.mem_of_mem_filter hh))
    · rcases List.mem_cons.mp hc with hh | hh
      · rw [hh]; exact h c0 (List.mem_cons_self _ _)
      · exact ih (fun c2 hc2 => h c2 (List.mem_cons_of_mem _ hc2)) c hh

theorem dbscanComponents_ne (adj : Nat → Nat → Bool) (n : Nat) :
    ∀ c ∈ dbscanComponents adj n, c ≠ [] := by
  unfold dbscanComponents
  have hgen : ∀ (l : List Nat) (comps : List (List Nat)), (∀ c ∈ comps, c ≠ []) →
      ∀ c ∈ l.foldl (fun cs i => addPoint adj i cs) comps, c ≠ [] := by
    intro l
    induction l with
    | nil => intro comps h; exact h
    | cons i l2 ih =>
      intro comps h
      simp only [List.foldl_cons]
      exact ih (addPoint adj i comps) (addPoint_ne adj i comps h)
  exact hgen (List.range n) [] (by simp)

theorem nodup_of_mem_flatten {α : Type} :
    ∀ L : List (List α), (L.flatten).Nodup → ∀ c ∈ L, c.Nodup := by
  intro L
  induction L with
  | nil => intro _ c hc; simp at hc
  | cons c0 t ih =>
    intro h c hc
    rw [List.flatten_cons] at h
    rcases List.mem_cons.mp hc with hh | hh
    · rw [hh]; exact List.Nodup.of_append_left h
    · exact ih (List.Nodup.of_append_right h) c hh

theorem contains_iff_mem_nat (c : List Nat) (j : Nat) : c.contains j = true ↔ j ∈ c := by
  simp [List.contains]

theorem normalize_perm (n : Nat) (c : List Nat) (hnd : c.Nodup) (hsub : ∀ j ∈ c, j < n) :
    List.Perm ((List.range n).filter (fun j => c.contains j)) c := by
  refine (List.perm_ext_iff_of_nodup (List.Nodup.filter _ (List.nodup_range n)) hnd).mpr ?_
  intro a
  rw [List.mem_filter, List.mem_range, contains_iff_mem_nat]
  constructor
  · rintro ⟨_, h2⟩; exact h2
  · intro h; exact ⟨hsub a h, h⟩

theorem flatten_map_perm {α : Type} (f : List α → List α) :
    ∀ L : List (List α), (∀ c ∈ L, List.Perm (f c) c) →
      List.Perm (L.map f).flatten L.flatten := by
  intro L
  induction L with
  | nil => intro _; simp
  | cons c t ih =>
    intro h
    simp only [List.map_cons, List.flatten_cons]
    exact (h c (List.mem_cons_self _ _)).append
      (ih (fun c2 hc2 => h c2 (List.mem_cons_of_mem _ hc2)))

theorem flatten_map_filterMap {α β : Type} (g : α → Option β) :
    ∀ L : List (List α), ((L.map (fun c => c.filterMap g)).flatten) = (L.flatten).filterMap g := by
  intro L
  induction L with
  | nil => rfl
  | cons c t ih =>
    simp only [List.map_cons, List.flatten_cons, List.filterMap_append, ih]

theorem filterMap_getElem_range {α : Type} :
    ∀ l : List α, (List.range l.length).filterMap (fun i => l[i]?) = l := by
  intro l
  induction l with
  | nil => rfl
  | cons a t ih =>
    rw [List.length_cons, List.range_succ_eq_map]
    have h0 : (fun i => (a :: t)[i]?) 0 = some a := by simp
    rw [List.filterMap_cons_some h0, List.filterMap_map]
    have hfn : ((fun i => (a :: t)[i]?) ∘ Nat.succ) = (fun i => t[i]?) := by
      funext i
      simp
    rw [hfn, ih]

theorem group_text_regions_flatten_perm (regions : List TextFragment) (eps vw hp : ℚ) :
    List.Perm (group_text_regions_by_distance regions eps vw hp).flatten regions := by
  unfold group_text_regions_by_distance
  have hcomp := dbscanComponents_flatten (adjacentIdx regions eps vw hp) regions.length
  have hnodup : ((dbscanComponents (adjacentIdx regions eps vw hp) regions.length).flatten).Nodup :=
    hcomp.symm.nodup (List.nodup_range _)
  have hmapped : ∀ c ∈ dbscanComponents (adjacentIdx regions eps vw hp) regions.length,
      List.Perm ((List.range regions.length).filter (fun j => c.contains j)) c := by
    intro c hc
    refine normalize_perm _ c (nodup_of_mem_flatten _ hnodup c hc) ?_
    intro j hj
    have : j ∈ (dbscanComponents (adjacentIdx regions eps vw hp) regions.length).flatten :=
      List.mem_flatten.mpr ⟨c, hc, hj⟩
    exact List.mem_range.mp (hcomp.mem_iff.mp this)
  have hsplit : (dbscanComponents (adjacentIdx regions eps vw hp) regions.length).map
      (fun c => ((List.range regions.length).filter (fun j => c.contains j)).filterMap
        (fun j => regions[j]?)) =
      ((dbscanComponents (adjacentIdx regions eps vw hp) regions.length).map
        (fun c => (List.range regions.length).filter (fun j => c.contains j))).map
        (fun c => c.filterMap (fun j => regions[j]?)) := by
    rw [List.map_map]
    rfl
  rw [hsplit, flatten_map_filterMap]
  have hperm2 : List.Perm (((dbscanComponents (adjacentIdx regions eps vw hp)
      regions.length).map (fun c => (List.range regions.length).filter
        (fun j => c.contains j))).flatten) (List.range regions.length) :=
    (flatten_map_perm _ _ hmapped).trans hcomp
  refine (hperm2.filterMap (fun j => regions[j]?)).trans ?_
  rw [filterMap_getElem_range]

theorem group_text_regions_ne (regions : List TextFragment) (eps vw hp : ℚ) :
    ∀ g ∈ group_text_regions_by_distance regions eps vw hp, g ≠ [] := by
  unfold group_text_regions_by_distance
  intro g hg
  rw [List.mem_map] at hg
  obtain ⟨c, hc, rfl⟩ := hg
  have hcne := dbscanComponents_ne (adjacentIdx regions eps vw hp) regions.length c hc
  have hcomp := dbscanComponents_flatten (adjacentIdx regions eps vw hp) regions.length
  rcases c with _ | ⟨j, t⟩
  · exact absurd rfl hcne
  have hjn : j < regions.length := by
    have : j ∈ (dbscanComponents (adjacentIdx regions eps vw hp) regions.length).flatten :=
      List.mem_flatten.mpr ⟨j :: t, hc, List.mem_cons_self _ _⟩
    exact List.mem_range.mp (hcomp.mem_iff.mp this)
  have hjmem : j ∈ (List.range regions.length).filter (fun i => (j :: t).contains i) := by
    rw [List.mem_filter, List.mem_range]
    exact ⟨hjn, (contains_iff_mem_nat _ _).mpr (List.mem_cons_self _ _)⟩
  have : regions[j] ∈ ((List.range regions.length).filter
      (fun i => (j :: t).contains i)).filterMap (fun i => regions[i]?) := by
    rw [List.mem_filterMap]
    exact ⟨j, hjmem, List.getElem?_eq_getElem hjn⟩
  intro hempty
  rw [hempty] at this
  simp at this


theorem mem_insertDescP (x y : Int × List TextFragment) :
    ∀ l, y ∈ insertDescP x l ↔ y = x ∨ y ∈ l := by
  intro l
  induction l with
  | nil => simp [insertDescP]
  | cons h t ih =>
    unfold insertDescP
    split
    · simp
    · simp only [List.mem_cons, ih]
      tauto

theorem mem_sortDescP (y : Int × List TextFragment) :
    ∀ l, y ∈ sortDescP l ↔ y ∈ l := by
  intro l
  induction l with
  | nil => simp [sortDescP]
  | cons h t ih =>
    unfold sortDescP
    rw [mem_insertDescP, ih]
    simp

theorem insertDescP_perm (x : Int × List TextFragment) :
    ∀ l, List.Perm (insertDescP x l) (x :: l) := by
  intro l
  induction l with
  | nil => exact List.Perm.refl _
  | cons h t ih =>
    unfold insertDescP
    split
    · exact List.Perm.refl _
    · exact (ih.cons h).trans (List.Perm.swap x h t)

theorem sortDescP_perm : ∀ l, List.Perm (sortDescP l) l := by
  intro l
  induction l with
  | nil => exact List.Perm.refl _
  | cons h t ih =>
    exact (insertDescP_perm h (sortDescP t)).trans (ih.cons h)

theorem insertDescP_sorted (x : Int × List TextFragment) :
    ∀ l, l.Pairwise (fun a b => b.1 ≤ a.1) →
      (insertDescP x l).Pairwise (fun a b => b.1 ≤ a.1) := by
  intro l
  induction l with
  | nil => intro _; simp [insertDescP]
  | cons h t ih =>
    intro hs
    rw [List.pairwise_cons] at hs
    unfold insertDescP
    split
    · rename_i hlt
      rw [List.pairwise_cons]
      constructor
      · intro y hy
        rcases List.mem_cons.mp hy with hh | hh
        · rw [hh]; omega
        · have := hs.1 y hh; omega
      · rw [List.pairwise_cons]
        exact hs
    · rename_i hnlt
      rw [List.pairwise_cons]
      constructor
      · intro y hy
        rcases (mem_insertDescP x y t).mp hy with hh | hh
        · rw [hh]; omega
        · exact hs.1 y hh
      · exact ih hs.2

theorem sortDescP_sorted : ∀ l, (sortDescP l).Pairwise (fun a b => b.1 ≤ a.1) := by
  intro l
  induction l with
  | nil => simp [sortDescP]
  | cons h t ih => exact insertDescP_sorted h (sortDescP t) ih

theorem insertDescE_eq (x : Int × List TextFragment) :
    ∀ l, (∀ y ∈ l, x.1 ≠ y.1) → insertDescE x l = .ok (insertDescP x l) := by
  intro l
  induction l with
  | nil => intro _; rfl
  | cons h t ih =>
    intro hd
    have hne := hd h (List.mem_cons_self _ _)
    have hcmp : cmpAreaGroup x h = .ok (if h.1 < x.1 then Ordering.gt else Ordering.lt) := by
      unfold cmpAreaGroup
      rcases lt_trichotomy x.1 h.1 with hc | hc | hc
      · rw [if_pos hc, if_neg (by omega)]
      · exact absurd hc hne
      · rw [if_neg (by omega), if_pos hc, if_pos hc]
    unfold insertDescE insertDescP
    rw [hcmp]
    split
    · rfl
    · show (do
        let r ← insertDescE x t
        Except.ok (h :: r)) = Except.ok (h :: insertDescP x t)
      rw [ih (fun y hy => hd y (List.mem_cons_of_mem _ hy))]
      rfl

theorem sortDescE_eq : ∀ l : List (Int × List TextFragment),
    l.Pairwise (fun a b => a.1 ≠ b.1) → sortDescE l = .ok (sortDescP l) := by
  intro l
  induction l with
  | nil => intro _; rfl
  | cons h t ih =>
    intro hd
    rw [List.pairwise_cons] at hd
    unfold sortDescE sortDescP
    rw [ih hd.2]
    exact insertDescE_eq h (sortDescP t) (fun y hy => hd.1 y ((mem_sortDescP y t).mp hy))

/-- Claim C6 (amended): when the group bounding-box areas are pairwise
distinct, a list no longer than max_count passes through unchanged in order,
and a longer list yields exactly the max_count groups of largest area in
descending-area order: the first max_count entries of a descending-sorted
permutation of the area and group pairs.  With tied areas the underlying
tuple sort compares fragment lists and can raise instead. -/
theorem filter_prioritize_spec (gs : List (List TextFragment)) (k : Nat)
    (hd : gs.Pairwise (fun g h => bubbleArea g ≠ bubbleArea h)) :
    (gs.length ≤ k → filter_and_prioritize_bubbles gs k = .ok gs) ∧
    (k < gs.length → ∃ sorted : List (Int × List TextFragment),
      List.Perm sorted (gs.map (fun g => (bubbleArea g, g))) ∧
      sorted.Pairwise (fun a b => b.1 ≤ a.1) ∧
      filter_and_prioritize_bubbles gs k = .ok ((sorted.take k).map Prod.snd)) := by
  have hd2 : (gs.map (fun g => (bubbleArea g, g))).Pairwise (fun a b => a.1 ≠ b.1) := by
    rw [List.pairwise_map]
    exact hd
  constructor
  · intro hlen
    unfold filter_and_prioritize_bubbles
    rw [if_pos hlen]
  · intro hlen
    refine ⟨sortDescP (gs.map (fun g => (bubbleArea g, g))), sortDescP_perm _,
      sortDescP_sorted _, ?_⟩
    unfold filter_and_prioritize_bubbles
    rw [if_neg (by omega), sortDescE_eq _ hd2]
    rfl

/-- Claim C5, failing input: filter_and_prioritize_bubbles raises TypeError
on a list of three distinct groups of equal bounding-box area exceeding
max_bubbles, because the descending tuple sort breaks the area tie by
ordering the fragment dictionaries, which the language cannot compare. -/
theorem filter_prioritize_tie_raises :
    filter_and_prioritize_bubbles
      [[(⟨0, 0, 10, 10, "one", 90⟩ : TextFragment)], [⟨100, 0, 10, 10, "two", 90⟩],
        [⟨200, 0, 10, 10, "three", 90⟩]] 2 = .error "TypeError" := rfl

/-- Claim C6, counterexample to the claim as stated: three groups of equal
bounding-box area with max_count 2 make filter_and_prioritize_bubbles raise
TypeError instead of returning the two largest groups. -/
theorem filter_prioritize_tie_cex :
    2 < ([[(⟨0, 0, 5, 5, "p", 90⟩ : TextFragment)], [⟨50, 0, 5, 5, "q", 90⟩],
        [⟨90, 0, 5, 5, "r", 90⟩]] : List (List TextFragment)).length ∧
    filter_and_prioritize_bubbles
      [[(⟨0, 0, 5, 5, "p", 90⟩ : TextFragment)], [⟨50, 0, 5, 5, "q", 90⟩],
        [⟨90, 0, 5, 5, "r", 90⟩]] 2 = .error "TypeError" :=
  ⟨by decide, rfl⟩

/-- Claim C4: for every fragment list and clustering parameters, clustering
followed by merging yields groups whose concatenation is a permutation of the
input list (every fragment in exactly one output group, none dropped as noise
and none duplicated) and whose bounding boxes are pairwise non-overlapping
under the strict-inequality rectangle intersection test. -/
theorem cluster_merge_partition (regions : List TextFragment) (eps vw hp : ℚ) :
    List.Perm (merge_overlapping_bubbles
      (group_text_regions_by_distance regions eps vw hp)).flatten regions ∧
    pairwiseNoOverlap ((merge_overlapping_bubbles
      (group_text_regions_by_distance regions eps vw hp)).map bboxOf) = true :=
  ⟨(merge_frags_perm _).trans (group_text_regions_flatten_perm regions eps vw hp),
    merge_boxes_disjoint _ (group_text_regions_ne regions eps vw hp)⟩

unseal Rat.mul Rat.sub Rat.add Rat.inv in
/-- Claim C8: with eps 225, vertical weight 1.5 and horizontal penalty
0.75, two fragments whose centers are 500 pixels apart horizontally at equal
vertical position fall into different groups, while two fragments stacked 30
pixels apart vertically at equal horizontal position fall into the same
group. -/
theorem clustering_separation_example :
    group_text_regions_by_distance
        [⟨0, 0, 10, 10, "a", 90⟩, ⟨500, 0, 10, 10, "b", 90⟩] 225 (3/2) (3/4) =
      [[⟨0, 0, 10, 10, "a", 90⟩], [⟨500, 0, 10, 10, "b", 90⟩]] ∧
    group_text_regions_by_distance
        [⟨0, 0, 10, 10, "c", 90⟩, ⟨0, 30, 10, 10, "d", 90⟩] 225 (3/2) (3/4) =
      [[⟨0, 0, 10, 10, "c", 90⟩, ⟨0, 30, 10, 10, "d", 90⟩]] :=
  ⟨rfl, rfl⟩

/-- Claim C9: the records persisted by save_final_bounds follow the group
order, and the i-th record carries the 1-based consecutive bubble number
i + 1, the geometry of the group union bounding box, the member texts joined
by single spaces in member order, and the member fragment list itself. -/
theorem save_final_bounds_records (bubble_groups : List (List TextFragment)) (i : Nat)
    (h : i < bubble_groups.length) :
    (save_final_bounds bubble_groups).length = bubble_groups.length ∧
    (save_final_bounds bubble_groups)[i]? = some
      { bubble_number := i + 1
        x := (bboxOf bubble_groups[i]).minX
        y := (bboxOf bubble_groups[i]).minY
        width := (bboxOf bubble_groups[i]).maxX - (bboxOf bubble_groups[i]).minX
        height := (bboxOf bubble_groups[i]).maxY - (bboxOf bubble_groups[i]).minY
        text := String.intercalate " " (bubble_groups[i].map (fun f => f.text))
        text_regions := bubble_groups[i] } := by
  constructor
  · unfold save_final_bounds
    rw [List.length_map, List.enum_length]
  · unfold save_final_bounds
    rw [List.getElem?_map]
    show ((bubble_groups.enumFrom 0)[i]?.map _) = _
    rw [List.getElem?_enumFrom, List.getElem?_eq_getElem h]
    simp only [Option.map_some, Nat.zero_add]
    rfl

/-- Claim C6, witness: the amended theorem instantiated at groups of areas
10, 50, 30, 5, 80 with max_count 2, hypothesis discharged by evaluation,
together with the concrete output: the groups of areas 80 and 50, in that
order. -/
theorem filter_prioritize_spec_witness :
    ([[(⟨0, 0, 10, 1, "a", 90⟩ : TextFragment)], [⟨0, 10, 50, 1, "b", 90⟩],
        [⟨0, 20, 30, 1, "c", 90⟩], [⟨0, 30, 5, 1, "d", 90⟩],
        [⟨0, 40, 80, 1, "e", 90⟩]] : List (List TextFragment)).Pairwise
      (fun g h => bubbleArea g ≠ bubbleArea h) ∧
    ((([[(⟨0, 0, 10, 1, "a", 90⟩ : TextFragment)], [⟨0, 10, 50, 1, "b", 90⟩],
        [⟨0, 20, 30, 1, "c", 90⟩], [⟨0, 30, 5, 1, "d", 90⟩],
        [⟨0, 40, 80, 1, "e", 90⟩]] : List (List TextFragment)).length ≤ 2 →
      filter_and_prioritize_bubbles
        [[(⟨0, 0, 10, 1, "a", 90⟩ : TextFragment)], [⟨0, 10, 50, 1, "b", 90⟩],
          [⟨0, 20, 30, 1, "c", 90⟩], [⟨0, 30, 5, 1, "d", 90⟩],
          [⟨0, 40, 80, 1, "e", 90⟩]] 2 = .ok
        [[(⟨0, 0, 10, 1, "a", 90⟩ : TextFragment)], [⟨0, 10, 50, 1, "b", 90⟩],
          [⟨0, 20, 30, 1, "c", 90⟩], [⟨0, 30, 5, 1, "d", 90⟩],
          [⟨0, 40, 80, 1, "e", 90⟩]]) ∧
     (2 < ([[(⟨0, 0, 10, 1, "a", 90⟩ : TextFragment)], [⟨0, 10, 50, 1, "b", 90⟩],
        [⟨0, 20, 30, 1, "c", 90⟩], [⟨0, 30, 5, 1, "d", 90⟩],
        [⟨0, 40, 80, 1, "e", 90⟩]] : List (List TextFragment)).length →
      ∃ sorted : List (Int × List TextFragment),
        List.Perm sorted
          (([[(⟨0, 0, 10, 1, "a", 90⟩ : TextFragment)], [⟨0, 10, 50, 1, "b", 90⟩],
            [⟨0, 20, 30, 1, "c", 90⟩], [⟨0, 30, 5, 1, "d", 90⟩],
            [⟨0, 40, 80, 1, "e", 90⟩]] : List (List TextFragment)).map
              (fun g => (bubbleArea g, g))) ∧
        sorted.Pairwise (fun a b => b.1 ≤ a.1) ∧
        filter_and_prioritize_bubbles
          [[(⟨0, 0, 10, 1, "a", 90⟩ : TextFragment)], [⟨0, 10, 50, 1, "b", 90⟩],
            [⟨0, 20, 30, 1, "c", 90⟩], [⟨0, 30, 5, 1, "d", 90⟩],
            [⟨0, 40, 80, 1, "e", 90⟩]] 2 = .ok ((sorted.take 2).map Prod.snd))) ∧
    filter_and_prioritize_bubbles
      [[(⟨0, 0, 10, 1, "a", 90⟩ : TextFragment)], [⟨0, 10, 50, 1, "b", 90⟩],
        [⟨0, 20, 30, 1, "c", 90⟩], [⟨0, 30, 5, 1, "d", 90⟩],
        [⟨0, 40, 80, 1, "e", 90⟩]] 2 =
      .ok [[(⟨0, 40, 80, 1, "e", 90⟩ : TextFragment)], [⟨0, 10, 50, 1, "b", 90⟩]] :=
  ⟨by decide,
    filter_prioritize_spec
      [[(⟨0, 0, 10, 1, "a", 90⟩ : TextFragment)], [⟨0, 10, 50, 1, "b", 90⟩],
        [⟨0, 20, 30, 1, "c", 90⟩], [⟨0, 30, 5, 1, "d", 90⟩],
        [⟨0, 40, 80, 1, "e", 90⟩]] 2 (by decide),
    rfl⟩

/-- Claim C9, witness: the theorem instantiated at two concrete
one-fragment groups and index 1, hypothesis discharged by evaluation. -/
theorem save_final_bounds_records_witness :
    1 < ([[(⟨0, 0, 10, 10, "x", 90⟩ : TextFragment)],
        [⟨5, 5, 10, 10, "y", 90⟩]] : List (List TextFragment)).length ∧
    ((save_final_bounds [[(⟨0, 0, 10, 10, "x", 90⟩ : TextFragment)],
        [⟨5, 5, 10, 10, "y", 90⟩]]).length = 2 ∧
     (save_final_bounds [[(⟨0, 0, 10, 10, "x", 90⟩ : TextFragment)],
        [⟨5, 5, 10, 10, "y", 90⟩]])[1]? = some
      { bubble_number := 2, x := 5, y := 5, width := 10, height := 10, text := "y"
        text_regions := [⟨5, 5, 10, 10, "y", 90⟩] }) :=
  ⟨by decide,
    save_final_bounds_records
      [[(⟨0, 0, 10, 10, "x", 90⟩ : TextFragment)], [⟨5, 5, 10, 10, "y", 90⟩]] 1 (by decide)⟩
